import Mathlib

/-!
Verification of the windowed aggregation and cross-instrument correlation
engine of `okx.c`.  C `double` fields that only ever hold exact input data
(timestamps, prices, volumes, delays) are modelled as `ℚ`; the Pearson
coefficient, which involves a square root, is modelled as a value in `ℝ`.
Instrument identifiers (C `char[16]` arrays manipulated with `strcmp` /
`strncpy`) are modelled as `List Char`.
-/

namespace Okx

/-- C identifier strings: `char` arrays compared byte-wise by `strcmp`. -/
abbrev CStr := List Char

/-- `trade_t` from okx.c: one trade with timestamp, price, volume and
processing delay (all seconds / exact numeric data, modelled as `ℚ`). -/
structure trade_t where
  timestamp : ℚ
  price : ℚ
  volume : ℚ
  delay : ℚ
deriving DecidableEq

/-- `ma_entry_t` from okx.c: one per-minute moving-average record.  The C
struct also declares `avg_scheduled_delay`, which is never assigned or read
anywhere in the program, so it is omitted here. -/
structure ma_entry_t where
  timestamp : ℚ
  moving_avg : ℚ
  total_volume : ℚ
  avg_delay : ℚ
deriving DecidableEq

/-- `moving_avg_t` from okx.c: per-instrument state.  The C fixed-size
arrays `trades[TRADE_BUFFER_SIZE]` with `trade_count` and
`ma_history[MA_HISTORY_SIZE]` with `ma_count` are modelled as lists holding
the first `trade_count` (resp. `ma_count`) slots.  `max_corr` is a Pearson
coefficient (possibly irrational), hence `ℝ`.  The log `FILE*` handles are
side-effect channels and are not part of the state. -/
structure moving_avg_t where
  instrument : CStr
  trades : List trade_t
  ma_history : List ma_entry_t
  max_corr : ℝ
  max_corr_symbol : CStr
  max_corr_time : ℚ
  max_corr_ma_time : ℚ

/-- `TRADE_BUFFER_SIZE` from okx.c. -/
def TRADE_BUFFER_SIZE : ℕ := 100000

/-- `MA_HISTORY_SIZE` from okx.c. -/
def MA_HISTORY_SIZE : ℕ := 8

/-- `MAX_INSTRUMENTS` from okx.c. -/
def MAX_INSTRUMENTS : ℕ := 8

/-- The fresh instrument record created by `get_instrument` (okx.c lines
101-146): the identifier is copied with `strncpy(dst, id, 15)` into a
`char[16]`, i.e. truncated to 15 characters; `trade_count = 0`,
`ma_count = 0`, `max_corr = -2.0`, symbol `"N/A"`, `max_corr_time = 0`.
`max_corr_ma_time` is not assigned explicitly but the global array has
static storage, so it is zero-initialised. -/
def mk_instrument (id : CStr) : moving_avg_t :=
  { instrument := id.take 15
    trades := []
    ma_history := []
    max_corr := -2
    max_corr_symbol := "N/A".data
    max_corr_time := 0
    max_corr_ma_time := 0 }

/-- The lookup loop of `get_instrument` (okx.c lines 97-100): scan the
table in order and return the index of the first entry whose stored name
compares equal (`strcmp == 0`) to the full requested identifier. -/
def lookupIdx (tbl : List moving_avg_t) (id : CStr) : Option ℕ :=
  match tbl with
  | [] => none
  | e :: rest => if e.instrument = id then some 0 else (lookupIdx rest id).map (· + 1)

/-- `get_instrument` from okx.c (lines 96-150): return the index of the
matching entry and the (unchanged) table, or create a fresh entry when
fewer than `MAX_INSTRUMENTS` exist, or fail with `none` leaving the table
unchanged. -/
def get_instrument (tbl : List moving_avg_t) (id : CStr) : Option ℕ × List moving_avg_t :=
  match lookupIdx tbl id with
  | some i => (some i, tbl)
  | none =>
    if tbl.length < MAX_INSTRUMENTS then (some tbl.length, tbl ++ [mk_instrument id])
    else (none, tbl)

/-- The append step of `save_trade` (okx.c lines 320-331): the trade is
stored only when `trade_count < TRADE_BUFFER_SIZE`; otherwise the entry is
left completely unchanged (the incoming trade is dropped). -/
def append_trade (e : moving_avg_t) (t : trade_t) : moving_avg_t :=
  if e.trades.length < TRADE_BUFFER_SIZE then { e with trades := e.trades ++ [t] } else e

/-- The state effect of one accepted-ticker iteration of `save_trade`
(okx.c lines 318-345): look up or create the instrument; when the lookup
fails the table is left unchanged and the trade is dropped; otherwise the
trade is appended (subject to the capacity check) to that entry. -/
def save_trade_state (tbl : List moving_avg_t) (id : CStr) (t : trade_t) :
    List moving_avg_t :=
  match get_instrument tbl id with
  | (some i, tbl') => tbl'.set i (append_trade (tbl'.getD i (mk_instrument [])) t)
  | (none, tbl') => tbl'

/-- A sequence of ingestion events applied in order: the only operations in
okx.c that ever mutate the instrument table's membership. -/
def applySaves (tbl : List moving_avg_t) (evs : List (CStr × trade_t)) :
    List moving_avg_t :=
  evs.foldl (fun t ev => save_trade_state t ev.1 ev.2) tbl

/-- Accumulator of the scan loop in `compute_moving_avg_and_volume`
(okx.c lines 354-368): running price sum, volume sum, delay sum, retained
count and the `temp` array of retained trades.  (The C variables `count`
and `new_trade_count` are incremented together; `count` is kept here and
`temp.length` plays the role of `new_trade_count`.) -/
structure ComputeAcc where
  sum_price : ℚ
  total_vol : ℚ
  processing_delay_sum : ℚ
  count : ℕ
  temp : List trade_t
deriving DecidableEq

/-- The scan loop of `compute_moving_avg_and_volume` (okx.c lines
359-368): trades with `timestamp >= now - FIFTEEN_MINUTES` are summed and
copied to `temp` in order; others are skipped. -/
def computeLoop (now : ℚ) : List trade_t → ComputeAcc → ComputeAcc
  | [], acc => acc
  | t :: ts, acc =>
      computeLoop now ts
        (if now - 900 ≤ t.timestamp then
          ⟨acc.sum_price + t.price, acc.total_vol + t.volume,
            acc.processing_delay_sum + t.delay, acc.count + 1, acc.temp ++ [t]⟩
        else acc)

/-- `compute_moving_avg_and_volume` from okx.c (lines 353-383): returns the
trimmed trade window (the `temp` array copied back over `entry->trades`)
and the minute's `ma_entry_t`, which is zero-valued when no trade was
retained and is stamped with `now` in both cases. -/
def compute_moving_avg_and_volume (trades : List trade_t) (now : ℚ) :
    List trade_t × ma_entry_t :=
  let acc := computeLoop now trades ⟨0, 0, 0, 0, []⟩
  (acc.temp,
    if 0 < acc.count then
      ⟨now, acc.sum_price / acc.count, acc.total_vol, acc.processing_delay_sum / acc.count⟩
    else ⟨now, 0, 0, 0⟩)

/-- The moving-average history push of `per_minute_worker` (okx.c lines
433-441): append while fewer than `MA_HISTORY_SIZE` records exist;
otherwise shift every record down one slot (evicting index 0) and store
the new record in the last slot. -/
def push_ma (hist : List ma_entry_t) (r : ma_entry_t) : List ma_entry_t :=
  if hist.length < MA_HISTORY_SIZE then hist ++ [r] else hist.drop 1 ++ [r]

/-- `scheduled` in `per_minute_worker` (okx.c line 395): the minute
boundary at or before the wake time. -/
def scheduled (actual_start : ℚ) : ℚ := ⌊actual_start / 60⌋ * 60

/-- `time_diff` in `per_minute_worker` (okx.c line 396): the recorded
scheduling drift. -/
def time_diff (actual_start : ℚ) : ℚ := actual_start - scheduled actual_start

/-- `next_minute` in `per_minute_worker` (okx.c line 411): the sleep
target, re-derived from the current clock each cycle. -/
def next_minute (actual_start : ℚ) : ℚ := ⌈actual_start / 60⌉ * 60

/-- `sleep_duration` in `per_minute_worker` (okx.c line 412). -/
def sleep_duration (actual_start : ℚ) : ℚ := next_minute actual_start - actual_start

/-- `pearson_corr_vector` from okx.c (lines 154-175), split into its exact
rational part: `none` models the `NAN` returns (fewer than 2 samples, or a
zero denominator term); otherwise the numerator `Σ(x−x̄)(y−ȳ)` and the
product `den1 * den2` of the squared-deviation sums are returned, the
coefficient itself being `num / sqrt (den1 * den2)` (see `pearsonVal`).
 The C function receives a common length `n` for both arrays; here `n` is
`v1.length` and the sums range over `v1.zip v2`, which coincides with the
C loops whenever the two vectors have equal length (as at every call
site, where both have length `MA_HISTORY_SIZE`). -/
def pearson_corr_vector (v1 v2 : List ℚ) : Option (ℚ × ℚ) :=
  if v1.length < 2 then none
  else
    let n : ℚ := (v1.length : ℚ)
    let mean1 := v1.sum / n
    let mean2 := v2.sum / n
    let ps := v1.zip v2
    let num := (ps.map (fun p => (p.1 - mean1) * (p.2 - mean2))).sum
    let den1 := (ps.map (fun p => (p.1 - mean1) * (p.1 - mean1))).sum
    let den2 := (ps.map (fun p => (p.2 - mean2) * (p.2 - mean2))).sum
    if den1 = 0 ∨ den2 = 0 then none else some (num, den1 * den2)

/-- The real value computed by `pearson_corr_vector`:
`num / sqrt (den1 * den2)`, or `none` for the `NAN` cases. -/
noncomputable def pearsonVal (v1 v2 : List ℚ) : Option ℝ :=
  (pearson_corr_vector v1 v2).map (fun p => (p.1 : ℝ) / Real.sqrt (p.2 : ℝ))

/-- The sum of squared deviations from the mean of a single vector (zero
exactly when the vector has zero variance). -/
def sqDevSum (v : List ℚ) : ℚ :=
  (v.map (fun x => (x - v.sum / v.length) * (x - v.sum / v.length))).sum

/-- `corr_data_t` from okx.c (lines 179-183): one snapshot entry. -/
structure corr_data_t where
  global_index : ℕ
  instrument : CStr
  ma : List ma_entry_t
deriving DecidableEq

/-- The moving-average value vector of a snapshot entry (the `ma1`/`ma2`
extraction at okx.c lines 208-212). -/
def corr_data_t.mavec (d : corr_data_t) : List ℚ :=
  d.ma.map ma_entry_t.moving_avg

/-- The contributing-index loop of `compute_corr_thread` (okx.c lines
223-240): recompute the two means, then find the first index maximising
`|(ma1[k]−mean1)·(ma2[k]−mean2)|` under a strict `>` scan started at
`max_contrib = -1`. -/
def argmaxContrib (v1 v2 : List ℚ) : Option ℕ :=
  let mean1 := v1.sum / v1.length
  let mean2 := v2.sum / v2.length
  (((v1.zip v2).enum).foldl
    (fun acc kp =>
      if |(kp.2.1 - mean1) * (kp.2.2 - mean2)| > acc.1 then
        (|(kp.2.1 - mean1) * (kp.2.2 - mean2)|, some kp.1)
      else acc)
    ((-1 : ℚ), (none : Option ℕ))).2

/-- The running state of the peer loop in `compute_corr_thread` (okx.c
lines 198-201): current best correlation, best symbol, timestamp of the
contributing MA value and its index (`-1` modelled as `none`). -/
structure CorrAcc where
  max_corr : ℝ
  max_sym : CStr
  max_ma_time : ℚ
  max_ma_index : Option ℕ

/-- One iteration of the peer loop of `compute_corr_thread` (okx.c lines
203-247): skip `NaN` correlations; on a strictly greater finite
correlation take the peer's symbol (truncated by `strncpy` to 15
characters) and recompute the contributing MA timestamp from the
instrument's own history. -/
noncomputable def corrStep (self : corr_data_t) (st : CorrAcc) (peer : corr_data_t) :
    CorrAcc :=
  match pearsonVal self.mavec peer.mavec with
  | none => st
  | some c =>
    if st.max_corr < c then
      { max_corr := c
        max_sym := peer.instrument.take 15
        max_ma_time :=
          match argmaxContrib self.mavec peer.mavec with
          | some k => (self.ma.getD k ⟨0, 0, 0, 0⟩).timestamp
          | none => st.max_ma_time
        max_ma_index := argmaxContrib self.mavec peer.mavec }
    else st

/-- The peer loop `for (j = 0; j < total; j++)` of `compute_corr_thread`,
with the `j == idx` skip; `j` is the index of the head of the remaining
list. -/
noncomputable def corrLoopAux (self : corr_data_t) (idx : ℕ) :
    ℕ → List corr_data_t → CorrAcc → CorrAcc
  | _, [], st => st
  | j, p :: rest, st =>
      corrLoopAux self idx (j + 1) rest (if j = idx then st else corrStep self st p)

/-- The initial loop state of `compute_corr_thread` (okx.c lines
198-201): `max_corr = -2.0`, symbol `"N/A"`, `max_ma_time = 0`,
`max_ma_index = -1`. -/
noncomputable def corrInit : CorrAcc := ⟨-2, "N/A".data, 0, none⟩

/-- `compute_corr_thread` from okx.c (lines 194-247): the final state of
the peer scan for the instrument at position `idx` of the snapshot. -/
noncomputable def compute_corr_thread (data : List corr_data_t) (idx : ℕ) : CorrAcc :=
  corrLoopAux (data.getD idx ⟨0, [], []⟩) idx 0 data corrInit

/-- The write-back of `compute_corr_thread` (okx.c lines 249-257): the
loop result is stored unconditionally into the instrument's best-peer
fields, with `max_corr_time` stamped with the cycle time. -/
noncomputable def corr_writeback (inst : moving_avg_t) (data : List corr_data_t)
    (idx : ℕ) (now : ℚ) : moving_avg_t :=
  let r := compute_corr_thread data idx
  { inst with
    max_corr_symbol := r.max_sym.take 15
    max_corr := r.max_corr
    max_corr_time := now
    max_corr_ma_time := r.max_ma_time }

/-- The trade array of one instrument as it exists in C memory: the full
fixed-size buffer (including slots beyond `count`, whose contents are
stale or zero-initialised) together with the live count. -/
structure trade_buffer where
  buf : ℕ → trade_t
  count : ℕ

/-- The buffer effect of an accepted trade in `save_trade` (okx.c lines
320-331): write the new trade at index `trade_count`, then increment
`trade_count`; at capacity the buffer is unchanged. -/
def save_trade_append (b : trade_buffer) (t : trade_t) : trade_buffer :=
  if b.count < TRADE_BUFFER_SIZE then
    { buf := fun i => if i = b.count then t else b.buf i, count := b.count + 1 }
  else b

/-- The delay value written to the transactions log by `save_trade`
(okx.c line 341): `entry->trades[entry->trade_count].delay`, evaluated
AFTER `entry->trade_count++`, i.e. the slot one past the record that was
just appended. -/
def logged_delay (b : trade_buffer) : ℚ := (b.buf b.count).delay

/-- Test vector from the specification. -/
def oneToEight : List ℚ := [1, 2, 3, 4, 5, 6, 7, 8]

/-- Test vector from the specification. -/
def eightToOne : List ℚ := [8, 7, 6, 5, 4, 3, 2, 1]

/-- Test vector from the specification: the zero-variance vector
`[5, 5, 5, 5, 5, 5, 5, 5]`. -/
def fives : List ℚ := List.replicate 8 5

/-! ### Window aggregation (C2) -/

/-- The retention predicate of `compute_moving_avg_and_volume` (okx.c
line 360): `timestamp >= now - FIFTEEN_MINUTES`. -/
def inWindow (now : ℚ) (t : trade_t) : Bool := now - 900 ≤ t.timestamp

/-- Characterisation of the scan loop of `compute_moving_avg_and_volume`:
it accumulates exactly the sums, count and retained subsequence of the
trades with `timestamp ≥ now − 900`. -/
lemma computeLoop_spec (now : ℚ) :
    ∀ (l : List trade_t) (acc : ComputeAcc),
      computeLoop now l acc =
        ⟨acc.sum_price + ((l.filter (inWindow now)).map trade_t.price).sum,
         acc.total_vol + ((l.filter (inWindow now)).map trade_t.volume).sum,
         acc.processing_delay_sum + ((l.filter (inWindow now)).map trade_t.delay).sum,
         acc.count + (l.filter (inWindow now)).length,
         acc.temp ++ l.filter (inWindow now)⟩ := by
  intro l
  induction l with
  | nil => intro acc; simp [computeLoop]
  | cons t ts ih =>
    intro acc
    by_cases h : now - 900 ≤ t.timestamp
    all_goals
      have hstep : computeLoop now (t :: ts) acc =
          computeLoop now ts
            (if now - 900 ≤ t.timestamp then
              ⟨acc.sum_price + t.price, acc.total_vol + t.volume,
                acc.processing_delay_sum + t.delay, acc.count + 1, acc.temp ++ [t]⟩
            else acc) := rfl
    · have hb : inWindow now t = true := by
        simp only [inWindow, decide_eq_true_eq]
        exact h
      rw [hstep, if_pos h, ih, List.filter_cons, if_pos hb]
      simp only [List.map_cons, List.sum_cons, List.length_cons, List.append_assoc,
        List.singleton_append, ComputeAcc.mk.injEq]
      exact ⟨by ring, by ring, by ring, by omega, trivial⟩
    · have hb : ¬ inWindow now t = true := by
        simp only [inWindow, decide_eq_true_eq]
        exact h
      rw [hstep, if_neg h, ih, List.filter_cons, if_neg hb]

/-- C2: after `compute(state, now)` the trade window is exactly the
subsequence of trades with `eventTime ≥ now − 900` in original order; when
that set is non-empty the returned record holds the arithmetic mean of the
retained prices, the sum of the retained volumes and the arithmetic mean
of the retained processing delays; when it is empty the record is
zero-valued; in both cases the record is stamped with `now`. -/
theorem compute_moving_avg_spec (trades : List trade_t) (now : ℚ) :
    (compute_moving_avg_and_volume trades now).1 = trades.filter (inWindow now) ∧
    ((compute_moving_avg_and_volume trades now).2).timestamp = now ∧
    (trades.filter (inWindow now) ≠ [] →
      (compute_moving_avg_and_volume trades now).2 =
        ⟨now,
          ((trades.filter (inWindow now)).map trade_t.price).sum /
            (trades.filter (inWindow now)).length,
          ((trades.filter (inWindow now)).map trade_t.volume).sum,
          ((trades.filter (inWindow now)).map trade_t.delay).sum /
            (trades.filter (inWindow now)).length⟩) ∧
    (trades.filter (inWindow now) = [] →
      (compute_moving_avg_and_volume trades now).2 = ⟨now, 0, 0, 0⟩) := by
  have hunf : compute_moving_avg_and_volume trades now =
      (trades.filter (inWindow now),
        if 0 < (trades.filter (inWindow now)).length then
          ⟨now,
            ((trades.filter (inWindow now)).map trade_t.price).sum /
              (trades.filter (inWindow now)).length,
            ((trades.filter (inWindow now)).map trade_t.volume).sum,
            ((trades.filter (inWindow now)).map trade_t.delay).sum /
              (trades.filter (inWindow now)).length⟩
        else ⟨now, 0, 0, 0⟩) := by
    unfold compute_moving_avg_and_volume
    rw [computeLoop_spec]
    simp only [zero_add, List.nil_append]
  rw [hunf]
  refine ⟨rfl, ?_, ?_, ?_⟩
  · by_cases hl : 0 < (trades.filter (inWindow now)).length
    · rw [if_pos hl]
    · rw [if_neg hl]
  · intro hne
    rw [if_pos (List.length_pos.mpr hne)]
  · intro he
    rw [if_neg (by simp [he])]

/-- Witness for C2: the end-to-end scenario of the specification — trades
`(0,100,1)`, `(30,102,2)`, `(60,101,1)` aggregated at `now = 60` give a
window containing all three trades, moving average `101` and total volume
`4`. -/
theorem compute_moving_avg_spec_witness :
    (compute_moving_avg_and_volume
        [⟨0, 100, 1, 0⟩, ⟨30, 102, 2, 0⟩, ⟨60, 101, 1, 0⟩] 60).1 =
      [⟨0, 100, 1, 0⟩, ⟨30, 102, 2, 0⟩, ⟨60, 101, 1, 0⟩] ∧
    (compute_moving_avg_and_volume
        [⟨0, 100, 1, 0⟩, ⟨30, 102, 2, 0⟩, ⟨60, 101, 1, 0⟩] 60).2 =
      ⟨60, 101, 4, 0⟩ := by
  have h := compute_moving_avg_spec
    [⟨0, 100, 1, 0⟩, ⟨30, 102, 2, 0⟩, ⟨60, 101, 1, 0⟩] 60
  have hfilt : (([⟨0, 100, 1, 0⟩, ⟨30, 102, 2, 0⟩, ⟨60, 101, 1, 0⟩] :
      List trade_t).filter (inWindow 60)) =
      [⟨0, 100, 1, 0⟩, ⟨30, 102, 2, 0⟩, ⟨60, 101, 1, 0⟩] := by
    have h0 : inWindow 60 ⟨0, 100, 1, 0⟩ = true := by
      simp only [inWindow, decide_eq_true_eq]
      norm_num
    have h30 : inWindow 60 ⟨30, 102, 2, 0⟩ = true := by
      simp only [inWindow, decide_eq_true_eq]
      norm_num
    have h60 : inWindow 60 ⟨60, 101, 1, 0⟩ = true := by
      simp only [inWindow, decide_eq_true_eq]
      norm_num
    rw [List.filter_cons, if_pos h0, List.filter_cons, if_pos h30,
      List.filter_cons, if_pos h60, List.filter_nil]
  rw [hfilt] at h
  refine ⟨h.1, ?_⟩
  rw [h.2.2.1 (by simp)]
  simp only [List.map_cons, List.map_nil, List.sum_cons, List.sum_nil,
    List.length_cons, List.length_nil, ma_entry_t.mk.injEq]
  norm_num

/-! ### Trade-window capacity (C3) -/

/-- C3: the trade window never exceeds the 100000-record capacity, and an
append against a window at capacity leaves the instrument's window
unchanged — the incoming trade is dropped, no old trade is evicted. -/
theorem trade_window_drop_on_overflow (e : moving_avg_t) (t : trade_t) :
    (e.trades.length ≤ TRADE_BUFFER_SIZE →
      (append_trade e t).trades.length ≤ TRADE_BUFFER_SIZE) ∧
    (e.trades.length = TRADE_BUFFER_SIZE → append_trade e t = e) := by
  constructor
  · intro hle
    unfold append_trade
    by_cases h : e.trades.length < TRADE_BUFFER_SIZE
    · simp [h]
      omega
    · simp [h]
      exact hle
  · intro heq
    unfold append_trade
    rw [if_neg (by omega)]

/-- Witness for C3: a window holding 100000 records is left untouched by a
further append. -/
theorem trade_window_drop_on_overflow_witness :
    append_trade
      ⟨"X".data, List.replicate 100000 ⟨0, 1, 1, 0⟩, [], -2, "N/A".data, 0, 0⟩
      ⟨7, 9, 9, 0⟩ =
    ⟨"X".data, List.replicate 100000 ⟨0, 1, 1, 0⟩, [], -2, "N/A".data, 0, 0⟩ := by
  refine (trade_window_drop_on_overflow _ _).2 ?_
  show (List.replicate 100000 (⟨0, 1, 1, 0⟩ : trade_t)).length = TRADE_BUFFER_SIZE
  rw [List.length_replicate]
  rfl

/-! ### Moving-average history eviction (C4) -/

/-- C4: the moving-average history holds at most 8 records; pushing into a
full history `[r1, …, r8]` evicts `r1` and preserves the order of the
remaining records, while pushing into a shorter history simply appends. -/
theorem ma_history_eviction (h : List ma_entry_t)
    (r r1 r2 r3 r4 r5 r6 r7 r8 : ma_entry_t) :
    push_ma [r1, r2, r3, r4, r5, r6, r7, r8] r = [r2, r3, r4, r5, r6, r7, r8, r] ∧
    (h.length < 8 → push_ma h r = h ++ [r]) ∧
    (h.length ≤ 8 → (push_ma h r).length ≤ 8) := by
  refine ⟨?_, ?_, ?_⟩
  · simp [push_ma, MA_HISTORY_SIZE]
  · intro hlt
    simp [push_ma, MA_HISTORY_SIZE, hlt]
  · intro hle
    unfold push_ma MA_HISTORY_SIZE
    by_cases hlt : h.length < 8
    · rw [if_pos hlt]
      simp only [List.length_append, List.length_cons, List.length_nil]
      omega
    · rw [if_neg hlt]
      simp only [List.length_append, List.length_drop, List.length_cons, List.length_nil]
      omega

/-- Witness for C4: pushing a ninth record into the full history
`[1, …, 8]` (records tagged by timestamp) yields records `2..9`, and a
push into a singleton history appends. -/
theorem ma_history_eviction_witness :
    push_ma [⟨1,0,0,0⟩, ⟨2,0,0,0⟩, ⟨3,0,0,0⟩, ⟨4,0,0,0⟩,
             ⟨5,0,0,0⟩, ⟨6,0,0,0⟩, ⟨7,0,0,0⟩, ⟨8,0,0,0⟩] ⟨9,0,0,0⟩ =
      [⟨2,0,0,0⟩, ⟨3,0,0,0⟩, ⟨4,0,0,0⟩, ⟨5,0,0,0⟩,
       ⟨6,0,0,0⟩, ⟨7,0,0,0⟩, ⟨8,0,0,0⟩, ⟨9,0,0,0⟩] ∧
    push_ma [⟨1,0,0,0⟩] ⟨2,0,0,0⟩ = [⟨1,0,0,0⟩, ⟨2,0,0,0⟩] := by
  exact ⟨(ma_history_eviction [] ⟨9,0,0,0⟩ ⟨1,0,0,0⟩ ⟨2,0,0,0⟩ ⟨3,0,0,0⟩ ⟨4,0,0,0⟩
      ⟨5,0,0,0⟩ ⟨6,0,0,0⟩ ⟨7,0,0,0⟩ ⟨8,0,0,0⟩).1,
    (ma_history_eviction [⟨1,0,0,0⟩] ⟨2,0,0,0⟩ ⟨1,0,0,0⟩ ⟨2,0,0,0⟩ ⟨3,0,0,0⟩ ⟨4,0,0,0⟩
      ⟨5,0,0,0⟩ ⟨6,0,0,0⟩ ⟨7,0,0,0⟩ ⟨8,0,0,0⟩).2.1 (by simp)⟩

/-! ### Minute scheduler timing (C5) -/

/-- C5: each cycle records drift `t0 − ⌊t0/60⌋·60` and re-derives the
sleep target `⌈t0/60⌉·60` from the current clock (a sleep of less than 60
seconds), so a wake that is late by `ε < 60` seconds after the derived
target produces a recorded drift of exactly `ε` in the next measurement —
lateness does not compound across cycles. -/
theorem per_minute_timing (actual_start ε : ℚ) (h0 : 0 ≤ ε) (h1 : ε < 60) :
    time_diff actual_start = actual_start - ⌊actual_start / 60⌋ * 60 ∧
    next_minute actual_start = ⌈actual_start / 60⌉ * 60 ∧
    0 ≤ sleep_duration actual_start ∧ sleep_duration actual_start < 60 ∧
    time_diff (next_minute actual_start + ε) = ε := by
  refine ⟨rfl, rfl, ?_, ?_, ?_⟩
  · unfold sleep_duration next_minute
    have hc := Int.le_ceil (actual_start / 60)
    nlinarith
  · unfold sleep_duration next_minute
    have hc := Int.ceil_lt_add_one (actual_start / 60)
    nlinarith
  · unfold time_diff scheduled next_minute
    have hdiv : ((⌈actual_start / 60⌉ : ℚ) * 60 + ε) / 60 =
        ε / 60 + (⌈actual_start / 60⌉ : ℚ) := by
      field_simp
      ring
    have hfl : ⌊ε / 60⌋ = 0 := by
      rw [Int.floor_eq_zero_iff, Set.mem_Ico]
      constructor
      · positivity
      · rw [div_lt_one (by norm_num : (0:ℚ) < 60)]
        exact h1
    rw [hdiv, Int.floor_add_int, hfl]
    push_cast
    ring

/-- Witness for C5: the specification's scenario — a cycle waking at
`t0 = 61.2` records drift `1.2` and re-derives sleep target `120`; a wake
`1.2` seconds after that target again records drift exactly `1.2`. -/
theorem per_minute_timing_witness :
    (0:ℚ) ≤ 6/5 ∧ (6/5:ℚ) < 60 ∧
    time_diff (306/5) = 6/5 ∧
    next_minute (306/5) = 120 ∧
    time_diff (next_minute (306/5) + 6/5) = 6/5 := by
  have h := per_minute_timing (306/5) (6/5) (by norm_num) (by norm_num)
  refine ⟨by norm_num, by norm_num, ?_, ?_, h.2.2.2.2⟩
  · rw [h.1]
    norm_num
  · rw [h.2.1]
    have : ⌈(306:ℚ)/5/60⌉ = 2 := by
      rw [show ((306:ℚ)/5/60) = 51/50 by norm_num, Int.ceil_eq_iff]
      norm_num
    rw [this]
    norm_num

/-! ### The transaction-log delay off-by-one (C9) -/

/-- C9 failing input: `save_trade` stores the appended trade (with its
correct `delay`) at index `trade_count` and increments `trade_count`, but
the record then written to the transactions stream reads
`trades[trade_count].delay` — the slot one past the appended record.  On a
buffer whose next-but-one slot holds a stale delay of `99`, appending a
trade with delay `1/1000` stores that trade correctly yet logs `99`. -/
theorem save_trade_logged_delay_mismatch :
    (save_trade_append ⟨fun _ => ⟨0, 0, 0, 99⟩, 0⟩ ⟨10, 100, 1, 1/1000⟩).buf 0 =
      ⟨10, 100, 1, 1/1000⟩ ∧
    logged_delay (save_trade_append ⟨fun _ => ⟨0, 0, 0, 99⟩, 0⟩ ⟨10, 100, 1, 1/1000⟩) = 99 ∧
    (⟨10, 100, 1, 1/1000⟩ : trade_t).delay ≠ 99 := by
  refine ⟨?_, ?_, by norm_num⟩
  · simp [save_trade_append, TRADE_BUFFER_SIZE]
  · simp [save_trade_append, logged_delay, TRADE_BUFFER_SIZE]

/-! ### Pearson correlation (C6) -/

/-- Rational part of the Pearson computation on `[1..8]` against itself:
deviation products sum to `42` and both squared-deviation sums are `42`. -/
lemma pearson_iota : pearson_corr_vector oneToEight oneToEight = some (42, 1764) := by
  norm_num [pearson_corr_vector, oneToEight, List.zip]

/-- Rational part of the Pearson computation on `[1..8]` against its
reversal. -/
lemma pearson_rev : pearson_corr_vector oneToEight eightToOne = some (-42, 1764) := by
  norm_num [pearson_corr_vector, oneToEight, eightToOne, List.zip]

lemma sqrt_1764 : Real.sqrt (((1764 : ℚ) : ℝ)) = 42 := by
  rw [show (((1764 : ℚ)) : ℝ) = 42 ^ 2 by norm_num]
  exact Real.sqrt_sq (by norm_num)

/-- `pearson([1..8], [1..8]) = 1`. -/
lemma pearsonVal_iota : pearsonVal oneToEight oneToEight = some 1 := by
  rw [pearsonVal, pearson_iota]
  simp only [Option.map_some']
  rw [sqrt_1764]
  norm_num

/-- `pearson([1..8], [8..1]) = -1`. -/
lemma pearsonVal_rev : pearsonVal oneToEight eightToOne = some (-1) := by
  rw [pearsonVal, pearson_rev]
  simp only [Option.map_some']
  rw [sqrt_1764]
  norm_num

/-- A zero-variance first vector makes `pearson_corr_vector` return the
`NaN` marker, whatever the second vector is. -/
lemma pearson_fives_none (v2 : List ℚ) : pearson_corr_vector fives v2 = none := by
  have hden : ((fives.zip v2).map
      (fun p => (p.1 - fives.sum / (fives.length : ℚ)) *
        (p.1 - fives.sum / (fives.length : ℚ)))).sum = 0 := by
    apply List.sum_eq_zero
    intro x hx
    simp only [List.mem_map] at hx
    obtain ⟨p, hp, rfl⟩ := hx
    have h5 : p.1 = 5 := List.eq_of_mem_replicate (List.of_mem_zip hp).1
    rw [h5]
    norm_num [fives]
  unfold pearson_corr_vector
  rw [if_neg (by norm_num [fives])]
  exact if_pos (Or.inl hden)

/-- `pearsonVal` version of `pearson_fives_none`. -/
lemma pearsonVal_fives (v2 : List ℚ) : pearsonVal fives v2 = none := by
  rw [pearsonVal, pearson_fives_none]
  rfl

/-- Normal form of `pearson_corr_vector` on equal-length vectors, with the
denominator terms expressed as per-vector squared-deviation sums. -/
lemma pearson_eq (v1 v2 : List ℚ) (hlen : v1.length = v2.length) :
    pearson_corr_vector v1 v2 =
      if v1.length < 2 then none
      else if sqDevSum v1 = 0 ∨ sqDevSum v2 = 0 then none
      else some
        (((v1.zip v2).map (fun p =>
            (p.1 - v1.sum / (v1.length : ℚ)) * (p.2 - v2.sum / (v2.length : ℚ)))).sum,
          sqDevSum v1 * sqDevSum v2) := by
  have hd1 : ((v1.zip v2).map
      (fun p => (p.1 - v1.sum / (v1.length : ℚ)) * (p.1 - v1.sum / (v1.length : ℚ)))).sum
      = sqDevSum v1 := by
    rw [show (fun (p : ℚ × ℚ) => (p.1 - v1.sum / (v1.length : ℚ)) *
          (p.1 - v1.sum / (v1.length : ℚ))) =
        (fun x => (x - v1.sum / (v1.length : ℚ)) * (x - v1.sum / (v1.length : ℚ))) ∘
          Prod.fst from rfl,
      ← List.map_map, List.map_fst_zip _ _ (le_of_eq hlen)]
    rfl
  have hd2 : ((v1.zip v2).map
      (fun p => (p.2 - v2.sum / (v1.length : ℚ)) * (p.2 - v2.sum / (v1.length : ℚ)))).sum
      = sqDevSum v2 := by
    rw [hlen]
    rw [show (fun (p : ℚ × ℚ) => (p.2 - v2.sum / (v2.length : ℚ)) *
          (p.2 - v2.sum / (v2.length : ℚ))) =
        (fun y => (y - v2.sum / (v2.length : ℚ)) * (y - v2.sum / (v2.length : ℚ))) ∘
          Prod.snd from rfl,
      ← List.map_map, List.map_snd_zip _ _ (le_of_eq hlen.symm)]
    rfl
  show (if v1.length < 2 then none
      else if ((v1.zip v2).map
          (fun p => (p.1 - v1.sum / (v1.length : ℚ)) * (p.1 - v1.sum / (v1.length : ℚ)))).sum = 0 ∨
        ((v1.zip v2).map
          (fun p => (p.2 - v2.sum / (v1.length : ℚ)) * (p.2 - v2.sum / (v1.length : ℚ)))).sum = 0
        then none
      else some
        (((v1.zip v2).map (fun p =>
            (p.1 - v1.sum / (v1.length : ℚ)) * (p.2 - v2.sum / (v1.length : ℚ)))).sum,
          ((v1.zip v2).map
            (fun p => (p.1 - v1.sum / (v1.length : ℚ)) * (p.1 - v1.sum / (v1.length : ℚ)))).sum *
          ((v1.zip v2).map
            (fun p => (p.2 - v2.sum / (v1.length : ℚ)) * (p.2 - v2.sum / (v1.length : ℚ)))).sum)) = _
  rw [hd1, hd2, hlen]

/-- All the `none` (`NaN`) cases of the Pearson function on equal-length
vectors: fewer than two samples, or a zero-variance vector. -/
lemma pearson_none_iff (v1 v2 : List ℚ) (hlen : v1.length = v2.length) :
    pearson_corr_vector v1 v2 = none ↔
      v1.length < 2 ∨ sqDevSum v1 = 0 ∨ sqDevSum v2 = 0 := by
  rw [pearson_eq v1 v2 hlen]
  by_cases h2 : v1.length < 2
  · rw [if_pos h2]
    simp [h2]
  · rw [if_neg h2]
    by_cases hd : sqDevSum v1 = 0 ∨ sqDevSum v2 = 0
    · rw [if_pos hd]
      simp [h2, hd]
    · rw [if_neg hd]
      simp [h2, hd]

/-- C6: the Pearson function is the mean-centered coefficient
`Σ(x−x̄)(y−ȳ) / sqrt(Σ(x−x̄)² · Σ(y−ȳ)²)`; it is `NaN` (modelled `none`)
exactly when there are fewer than 2 samples or either vector has zero
variance; `pearson([1..8],[1..8]) = 1`, `pearson([1..8],[8..1]) = −1`, and
a constant vector `[5,…,5]` yields `NaN` against any vector. -/
theorem pearson_corr_vector_properties :
    (∀ v1 v2 : List ℚ, v1.length = v2.length →
      (pearson_corr_vector v1 v2 = none ↔
        v1.length < 2 ∨ sqDevSum v1 = 0 ∨ sqDevSum v2 = 0)) ∧
    (∀ v1 v2 : List ℚ, v1.length = v2.length → 2 ≤ v1.length →
      sqDevSum v1 ≠ 0 → sqDevSum v2 ≠ 0 →
      pearsonVal v1 v2 = some
        ((((v1.zip v2).map (fun p =>
            (p.1 - v1.sum / (v1.length : ℚ)) * (p.2 - v2.sum / (v2.length : ℚ)))).sum : ℚ) /
          Real.sqrt ((sqDevSum v1 * sqDevSum v2 : ℚ) : ℝ))) ∧
    pearsonVal oneToEight oneToEight = some 1 ∧
    pearsonVal oneToEight eightToOne = some (-1) ∧
    (∀ v2 : List ℚ, pearsonVal fives v2 = none) := by
  refine ⟨pearson_none_iff, ?_, pearsonVal_iota, pearsonVal_rev, pearsonVal_fives⟩
  intro v1 v2 hlen h2 hd1 hd2
  rw [pearsonVal, pearson_eq v1 v2 hlen, if_neg (by omega),
    if_neg (by rw [not_or]; exact ⟨hd1, hd2⟩)]
  rfl

/-- Witness for C6: a zero-variance 3-sample pair is `NaN`, and the
perfectly correlated pair `([1,2],[3,4])` evaluates to coefficient `1`. -/
theorem pearson_corr_vector_properties_witness :
    pearson_corr_vector [(5 : ℚ), 5, 5] [1, 2, 3] = none ∧
    pearsonVal [(1 : ℚ), 2] [3, 4] = some 1 := by
  constructor
  · exact (pearson_corr_vector_properties.1 [(5 : ℚ), 5, 5] [1, 2, 3] rfl).mpr
      (Or.inr (Or.inl (by norm_num [sqDevSum])))
  · rw [pearson_corr_vector_properties.2.1 [(1 : ℚ), 2] [3, 4] rfl (by norm_num)
      (by norm_num [sqDevSum]) (by norm_num [sqDevSum])]
    have hnum : ((([(1 : ℚ), 2].zip [3, 4]).map (fun p =>
        (p.1 - [(1 : ℚ), 2].sum / (([(1 : ℚ), 2].length) : ℚ)) *
        (p.2 - [(3 : ℚ), 4].sum / (([(3 : ℚ), 4].length) : ℚ)))).sum : ℚ) = 1/2 := by
      norm_num [List.zip]
    have hden : (sqDevSum [(1 : ℚ), 2] * sqDevSum [(3 : ℚ), 4]) = 1/4 := by
      norm_num [sqDevSum]
    rw [hnum, hden]
    rw [show (((1/4 : ℚ)) : ℝ) = (1/2 : ℝ) ^ 2 by norm_num,
      Real.sqrt_sq (by norm_num : (0:ℝ) ≤ 1/2)]
    norm_num

/-! ### Correlation engine: max-selection (C7) and best-peer write-back (C1) -/

/-- A `NaN` correlation leaves the loop state unchanged (the `isnan`
guard at okx.c line 218). -/
lemma corrStep_none {self : corr_data_t} {st : CorrAcc} {p : corr_data_t}
    (h : pearsonVal self.mavec p.mavec = none) : corrStep self st p = st := by
  unfold corrStep
  simp only [h]

/-- A finite correlation not exceeding the running maximum leaves the loop
state unchanged (the strict `>` at okx.c line 218). -/
lemma corrStep_stay {self : corr_data_t} {st : CorrAcc} {p : corr_data_t} {c : ℝ}
    (h : pearsonVal self.mavec p.mavec = some c)
    (hng : ¬ st.max_corr < c) : corrStep self st p = st := by
  unfold corrStep
  simp only [h]
  exact if_neg hng

/-- A strictly greater finite correlation installs the peer's value and
symbol (okx.c lines 219-221). -/
lemma corrStep_update {self : corr_data_t} {st : CorrAcc} {p : corr_data_t} {c : ℝ}
    (h : pearsonVal self.mavec p.mavec = some c)
    (hlt : st.max_corr < c) :
    (corrStep self st p).max_corr = c ∧
    (corrStep self st p).max_sym = p.instrument.take 15 := by
  unfold corrStep
  simp only [h]
  rw [if_pos hlt]
  exact ⟨rfl, rfl⟩

/-- If no remaining peer (at a position other than `idx`) yields a finite
correlation strictly above the current maximum, the loop state never
changes. -/
lemma corrLoopAux_no_update (self : corr_data_t) (idx : ℕ) :
    ∀ (l : List corr_data_t) (j : ℕ) (st : CorrAcc),
      (∀ k (hk : k < l.length), j + k ≠ idx → ∀ c,
        pearsonVal self.mavec (l.get ⟨k, hk⟩).mavec = some c → ¬ st.max_corr < c) →
      corrLoopAux self idx j l st = st := by
  intro l
  induction l with
  | nil => intro j st _; rfl
  | cons p rest ih =>
    intro j st h
    have hstep : (if j = idx then st else corrStep self st p) = st := by
      by_cases hji : j = idx
      · rw [if_pos hji]
      · rw [if_neg hji]
        cases hc : pearsonVal self.mavec p.mavec with
        | none => exact corrStep_none hc
        | some c =>
          exact corrStep_stay hc (h 0 (Nat.succ_pos _) (by simpa using hji) c hc)
    show corrLoopAux self idx (j + 1) rest (if j = idx then st else corrStep self st p) = st
    rw [hstep]
    exact ih (j + 1) st (fun k hk hne c hc =>
      h (k + 1) (Nat.succ_lt_succ hk) (by omega) c hc)

/-- If every remaining peer's finite correlation is strictly below `c` and
the running maximum is strictly below `c`, the final maximum stays
strictly below `c`. -/
lemma corrLoopAux_lt (self : corr_data_t) (idx : ℕ) (c : ℝ) :
    ∀ (l : List corr_data_t) (j : ℕ) (st : CorrAcc), st.max_corr < c →
      (∀ k (hk : k < l.length), j + k ≠ idx → ∀ c',
        pearsonVal self.mavec (l.get ⟨k, hk⟩).mavec = some c' → c' < c) →
      (corrLoopAux self idx j l st).max_corr < c := by
  intro l
  induction l with
  | nil => intro j st hst _; exact hst
  | cons p rest ih =>
    intro j st hst h
    have hstep : (if j = idx then st else corrStep self st p).max_corr < c := by
      by_cases hji : j = idx
      · rw [if_pos hji]; exact hst
      · rw [if_neg hji]
        cases hc : pearsonVal self.mavec p.mavec with
        | none => rw [corrStep_none hc]; exact hst
        | some c' =>
          by_cases hlt : st.max_corr < c'
          · rw [(corrStep_update hc hlt).1]
            exact h 0 (Nat.succ_pos _) (by simpa using hji) c' hc
          · rw [corrStep_stay hc hlt]; exact hst
    show (corrLoopAux self idx (j + 1) rest
        (if j = idx then st else corrStep self st p)).max_corr < c
    exact ih (j + 1) _ hstep (fun k hk hne c' hc =>
      h (k + 1) (Nat.succ_lt_succ hk) (by omega) c' hc)

/-- Splitting the peer loop across a list decomposition. -/
lemma corrLoopAux_append (self : corr_data_t) (idx : ℕ) :
    ∀ (l1 l2 : List corr_data_t) (j : ℕ) (st : CorrAcc),
      corrLoopAux self idx j (l1 ++ l2) st =
        corrLoopAux self idx (j + l1.length) l2 (corrLoopAux self idx j l1 st) := by
  intro l1
  induction l1 with
  | nil => intro l2 j st; rfl
  | cons p rest ih =>
    intro l2 j st
    have hidx : j + (p :: rest).length = (j + 1) + rest.length := by
      simp only [List.length_cons]
      omega
    rw [hidx]
    show corrLoopAux self idx (j + 1) (rest ++ l2)
        (if j = idx then st else corrStep self st p) =
      corrLoopAux self idx ((j + 1) + rest.length) l2
        (corrLoopAux self idx (j + 1) rest (if j = idx then st else corrStep self st p))
    exact ih l2 (j + 1) _

/-- C7: best-peer selection tracks the maximum finite correlation over the
snapshot in iteration order with strict `>`: if the peer at position `j1`
has finite correlation `c` (with `c > −2`), every earlier peer's finite
correlation is strictly below `c`, and every later peer's finite
correlation is at most `c` (peers whose correlation is `NaN` are
unconstrained — they are never selected), then the scan ends with
correlation `c` attributed to peer `j1`: a later peer of equal
correlation never replaces the first maximum. -/
theorem corr_best_peer_selection (data : List corr_data_t) (idx j1 : ℕ) (c : ℝ)
    (hj1 : j1 < data.length) (hne : j1 ≠ idx) (hgt : (-2 : ℝ) < c)
    (hc : pearsonVal (data.getD idx ⟨0, [], []⟩).mavec ((data.get ⟨j1, hj1⟩).mavec) = some c)
    (hbefore : ∀ j (hj : j < data.length), j < j1 → j ≠ idx → ∀ c',
      pearsonVal (data.getD idx ⟨0, [], []⟩).mavec ((data.get ⟨j, hj⟩).mavec) = some c' →
        c' < c)
    (hafter : ∀ j (hj : j < data.length), j1 < j → j ≠ idx → ∀ c',
      pearsonVal (data.getD idx ⟨0, [], []⟩).mavec ((data.get ⟨j, hj⟩).mavec) = some c' →
        c' ≤ c) :
    (compute_corr_thread data idx).max_corr = c ∧
    (compute_corr_thread data idx).max_sym = (data.get ⟨j1, hj1⟩).instrument.take 15 := by
  set self := data.getD idx ⟨0, [], []⟩ with hself
  have hlen_take : (data.take j1).length = j1 := by
    rw [List.length_take]
    omega
  have hdecomp : data = data.take j1 ++ data.get ⟨j1, hj1⟩ :: data.drop (j1 + 1) := by
    conv_lhs => rw [← List.take_append_drop j1 data]
    rw [List.drop_eq_getElem_cons hj1, List.get_eq_getElem]
  have hst1 : (corrLoopAux self idx 0 (data.take j1) corrInit).max_corr < c := by
    apply corrLoopAux_lt self idx c (data.take j1) 0 corrInit hgt
    intro k hk hkidx c' hc'
    have hklt : k < j1 := by
      rw [hlen_take] at hk
      exact hk
    have hkd : k < data.length := lt_trans hklt hj1
    have hgete : (data.take j1).get ⟨k, hk⟩ = data.get ⟨k, hkd⟩ := by
      simp [List.get_eq_getElem, List.getElem_take]
    rw [hgete] at hc'
    exact hbefore k hkd hklt (by simpa using hkidx) c' hc'
  have hupd := corrStep_update hc hst1
  have hmain : compute_corr_thread data idx =
      corrStep self (corrLoopAux self idx 0 (data.take j1) corrInit)
        (data.get ⟨j1, hj1⟩) := by
    unfold compute_corr_thread
    rw [← hself]
    conv_lhs => rw [hdecomp]
    rw [corrLoopAux_append, hlen_take]
    simp only [Nat.zero_add]
    show corrLoopAux self idx (j1 + 1) (data.drop (j1 + 1))
        (if j1 = idx then corrLoopAux self idx 0 (data.take j1) corrInit
          else corrStep self (corrLoopAux self idx 0 (data.take j1) corrInit)
            (data.get ⟨j1, hj1⟩)) = _
    rw [if_neg hne]
    apply corrLoopAux_no_update
    intro k hk hkidx c' hc'
    have hkd : j1 + 1 + k < data.length := by
      have := hk
      rw [List.length_drop] at this
      omega
    have hgete : (data.drop (j1 + 1)).get ⟨k, hk⟩ = data.get ⟨j1 + 1 + k, hkd⟩ := by
      simp [List.get_eq_getElem, List.getElem_drop]
    rw [hgete] at hc'
    have hle := hafter (j1 + 1 + k) hkd (by omega) (by omega) c' hc'
    rw [hupd.1]
    exact not_lt.mpr hle
  rw [hmain]
  exact hupd

/-- Snapshot-entry moving-average history whose value vector is
`[1, …, 8]`. -/
def iotaMa : List ma_entry_t :=
  [⟨1, 1, 0, 0⟩, ⟨2, 2, 0, 0⟩, ⟨3, 3, 0, 0⟩, ⟨4, 4, 0, 0⟩,
   ⟨5, 5, 0, 0⟩, ⟨6, 6, 0, 0⟩, ⟨7, 7, 0, 0⟩, ⟨8, 8, 0, 0⟩]

/-- A three-instrument snapshot in which both peers of instrument 0 carry
the identical vector `[1, …, 8]`, hence equal correlations of `1`. -/
def dataC7 : List corr_data_t :=
  [⟨0, "SSS".data, iotaMa⟩, ⟨1, "AAA".data, iotaMa⟩, ⟨2, "BBB".data, iotaMa⟩]

/-- Witness for C7: with two peers of equal correlation `1`, the scan for
instrument 0 retains the first peer (`"AAA"`), not the later equal one. -/
theorem corr_best_peer_selection_witness :
    (compute_corr_thread dataC7 0).max_corr = 1 ∧
    (compute_corr_thread dataC7 0).max_sym = "AAA".data := by
  have hc : pearsonVal (dataC7.getD 0 ⟨0, [], []⟩).mavec
      ((dataC7.get ⟨1, by norm_num [dataC7]⟩).mavec) = some 1 := by
    have h1 : (dataC7.getD 0 ⟨0, [], []⟩).mavec = oneToEight := rfl
    have h2 : ((dataC7.get ⟨1, by norm_num [dataC7]⟩).mavec) = oneToEight := rfl
    rw [h1, h2, pearsonVal_iota]
  have h := corr_best_peer_selection dataC7 0 1 1 (by norm_num [dataC7]) (by omega)
    (by norm_num) hc ?_ ?_
  · exact ⟨h.1, h.2.trans rfl⟩
  · intro j hj hjlt hjne c' hc'
    omega
  · intro j hj hjgt hjne c' hc'
    have hj3 : j < 3 := by simpa [dataC7] using hj
    have hj2 : j = 2 := by omega
    subst hj2
    have h2 : ((dataC7.get ⟨2, hj⟩).mavec) = oneToEight := rfl
    have h1 : (dataC7.getD 0 ⟨0, [], []⟩).mavec = oneToEight := rfl
    rw [h1, h2, pearsonVal_iota] at hc'
    have : c' = 1 := by
      injection hc' with h
      exact h.symm
    rw [this]

/-- Concrete previous best-peer state for the all-NaN counterexample: a
previous cycle had found peer `"BBB"` with correlation `1`, computed at
time `5` with contributing MA time `3`. -/
noncomputable def instC1 : moving_avg_t :=
  ⟨"AAA".data, [], [], 1, "BBB".data, 5, 3⟩

/-- A two-instrument snapshot whose MA vectors are both constant, so the
only peer correlation of each instrument is NaN. -/
def dataC1 : List corr_data_t :=
  [⟨0, "AAA".data, List.replicate 8 ⟨0, 5, 0, 0⟩⟩,
   ⟨1, "BBB".data, List.replicate 8 ⟨0, 7, 0, 0⟩⟩]

/-- C1 counterexample: in a cycle where every peer correlation is NaN
(the single peer has a constant MA vector), the instrument's best-peer
fields are NOT left at their previous values: the previously found peer
(correlation `1`, computed at time `5`) is overwritten with the sentinel
`−2.0` and the record is restamped with the cycle time `100`. -/
theorem corr_bestpeer_not_preserved :
    pearsonVal (dataC1.getD 0 ⟨0, [], []⟩).mavec
      ((dataC1.getD 1 ⟨0, [], []⟩).mavec) = none ∧
    (corr_writeback instC1 dataC1 0 100).max_corr = -2 ∧
    instC1.max_corr = 1 ∧
    (corr_writeback instC1 dataC1 0 100).max_corr_time = 100 ∧
    instC1.max_corr_time = 5 ∧
    corr_writeback instC1 dataC1 0 100 ≠ instC1 := by
  have hv : (dataC1.getD 0 ⟨0, [], []⟩).mavec = fives := by
    show (List.replicate 8 (⟨0, 5, 0, 0⟩ : ma_entry_t)).map ma_entry_t.moving_avg = fives
    rw [List.map_replicate]
    rfl
  have hnan : pearsonVal (dataC1.getD 0 ⟨0, [], []⟩).mavec
      ((dataC1.getD 1 ⟨0, [], []⟩).mavec) = none := by
    rw [hv]
    exact pearsonVal_fives _
  have hth : compute_corr_thread dataC1 0 = corrInit := by
    unfold compute_corr_thread
    apply corrLoopAux_no_update
    intro k hk hkidx c hc
    have hk2 : k < 2 := by simpa [dataC1] using hk
    have hk1 : k = 1 := by omega
    subst hk1
    rw [show (dataC1.get ⟨1, hk⟩) = dataC1.getD 1 ⟨0, [], []⟩ from rfl] at hc
    rw [hnan] at hc
    exact Option.noConfusion hc
  have hwb : corr_writeback instC1 dataC1 0 100 =
      { instC1 with
          max_corr_symbol := "N/A".data
          max_corr := -2
          max_corr_time := 100
          max_corr_ma_time := 0 } := by
    unfold corr_writeback
    rw [hth]
    rfl
  refine ⟨hnan, by rw [hwb], rfl, by rw [hwb], rfl, ?_⟩
  intro heq
  have h2 : (corr_writeback instC1 dataC1 0 100).max_corr = instC1.max_corr := by
    rw [heq]
  rw [hwb] at h2
  have h3 : (-2 : ℝ) = 1 := h2
  norm_num at h3

/-- C1 (amended): when no peer yields a finite correlation in a cycle, the
write-back does NOT leave the best-peer fields unchanged — it
unconditionally installs the cycle's local result, i.e. the sentinel
(symbol `"N/A"`, correlation `−2.0`, contributing MA time `0`) stamped
with the cycle time `now`, regardless of the previous values; within the
cycle the running maximum only advances on a strictly greater finite
correlation. -/
theorem corr_writeback_all_nan (inst : moving_avg_t) (data : List corr_data_t)
    (idx : ℕ) (now : ℚ)
    (h : ∀ j (hj : j < data.length), j ≠ idx →
      pearsonVal (data.getD idx ⟨0, [], []⟩).mavec ((data.get ⟨j, hj⟩).mavec) = none) :
    corr_writeback inst data idx now =
      { inst with
          max_corr_symbol := "N/A".data
          max_corr := -2
          max_corr_time := now
          max_corr_ma_time := 0 } := by
  have hth : compute_corr_thread data idx = corrInit := by
    unfold compute_corr_thread
    apply corrLoopAux_no_update
    intro k hk hkidx c hc
    rw [h k hk (by simpa using hkidx)] at hc
    exact Option.noConfusion hc
  unfold corr_writeback
  rw [hth]
  rfl

/-- Witness for C1 (amended): the concrete all-NaN snapshot `dataC1`
overwrites the previously found peer of `instC1` with the sentinel record
stamped at time `100`. -/
theorem corr_writeback_all_nan_witness :
    corr_writeback instC1 dataC1 0 100 =
      { instC1 with
          max_corr_symbol := "N/A".data
          max_corr := -2
          max_corr_time := 100
          max_corr_ma_time := 0 } := by
  apply corr_writeback_all_nan
  intro j hj hne
  have hj2 : j < 2 := by simpa [dataC1] using hj
  have hj1 : j = 1 := by omega
  subst hj1
  rw [show (dataC1.get ⟨1, hj⟩) = dataC1.getD 1 ⟨0, [], []⟩ from rfl]
  rw [show (dataC1.getD 0 ⟨0, [], []⟩).mavec = fives from ?_]
  · exact pearsonVal_fives _
  · show (List.replicate 8 (⟨0, 5, 0, 0⟩ : ma_entry_t)).map ma_entry_t.moving_avg = fives
    rw [List.map_replicate]
    rfl

/-! ### Instrument table (C8, C10) -/

/-- The lookup loop finds nothing exactly when no stored name equals the
requested identifier. -/
lemma lookupIdx_eq_none {tbl : List moving_avg_t} {id : CStr} :
    lookupIdx tbl id = none ↔ ∀ e ∈ tbl, e.instrument ≠ id := by
  induction tbl with
  | nil => simp [lookupIdx]
  | cons e rest ih =>
    by_cases he : e.instrument = id
    · simp [lookupIdx, he]
    · simp [lookupIdx, he, ih]

/-- The lookup loop returns an index within the table pointing at an entry
whose stored name equals the requested identifier. -/
lemma lookupIdx_found {tbl : List moving_avg_t} {id : CStr}
    (h : ∃ e ∈ tbl, e.instrument = id) :
    ∃ i, ∃ hi : i < tbl.length,
      lookupIdx tbl id = some i ∧ (tbl.get ⟨i, hi⟩).instrument = id := by
  induction tbl with
  | nil => simp at h
  | cons e rest ih =>
    by_cases he : e.instrument = id
    · exact ⟨0, Nat.succ_pos _, by simp [lookupIdx, he], he⟩
    · obtain ⟨e', he', heq⟩ := h
      rcases List.mem_cons.mp he' with rfl | hmem
      · exact absurd heq he
      · obtain ⟨i, hi, hl, hg⟩ := ih ⟨e', hmem, heq⟩
        refine ⟨i + 1, Nat.succ_lt_succ hi, ?_, hg⟩
        simp [lookupIdx, he, hl]

/-- `append_trade` never changes the stored identifier. -/
lemma append_trade_instrument (e : moving_avg_t) (t : trade_t) :
    (append_trade e t).instrument = e.instrument := by
  unfold append_trade
  split <;> rfl

/-- On a full (8-entry) table a `save_trade` event preserves the table
length and introduces no new identifiers. -/
lemma save_full_preserves (tbl : List moving_avg_t) (id0 : CStr) (t : trade_t)
    (h8 : tbl.length = 8) :
    (save_trade_state tbl id0 t).length = 8 ∧
    (∀ e ∈ save_trade_state tbl id0 t, ∃ e0 ∈ tbl, e.instrument = e0.instrument) := by
  unfold save_trade_state get_instrument
  cases hl : lookupIdx tbl id0 with
  | none =>
    rw [if_neg (by rw [h8]; exact (by norm_num [MAX_INSTRUMENTS]))]
    exact ⟨h8, fun e he => ⟨e, he, rfl⟩⟩
  | some i =>
    have hi : i < tbl.length := by
      clear h8
      induction tbl generalizing i with
      | nil => simp [lookupIdx] at hl
      | cons e rest ih =>
        by_cases he : e.instrument = id0
        · simp only [lookupIdx, if_pos he, Option.some.injEq] at hl
          subst hl
          exact Nat.succ_pos _
        · simp only [lookupIdx, if_neg he, Option.map_eq_some'] at hl
          obtain ⟨i', hl', rfl⟩ := hl
          exact Nat.succ_lt_succ (ih i' hl')
    constructor
    · rw [List.length_set]
      exact h8
    · intro e he
      rcases List.mem_or_eq_of_mem_set he with hmem | rfl
      · exact ⟨e, hmem, rfl⟩
      · refine ⟨tbl.getD i (mk_instrument []), ?_, append_trade_instrument _ _⟩
        rw [List.getD_eq_getElem tbl _ hi]
        exact List.getElem_mem hi

/-- Any sequence of ingestion events leaves a full table at 8 entries with
no identifier matching a name absent from the original table. -/
lemma applySaves_full (id : CStr) :
    ∀ (evs : List (CStr × trade_t)) (tbl : List moving_avg_t),
      tbl.length = 8 → (∀ e ∈ tbl, e.instrument ≠ id) →
      (applySaves tbl evs).length = 8 ∧
      (∀ e ∈ applySaves tbl evs, e.instrument ≠ id) := by
  intro evs
  induction evs with
  | nil => intro tbl h8 hid; exact ⟨h8, hid⟩
  | cons ev rest ih =>
    intro tbl h8 hid
    have hstep := save_full_preserves tbl ev.1 ev.2 h8
    refine ih (save_trade_state tbl ev.1 ev.2) hstep.1 ?_
    intro e he
    obtain ⟨e0, he0, heq⟩ := hstep.2 e he
    rw [heq]
    exact hid e0 he0

/-- C8: `get_instrument` is idempotent on a stored identifier (it returns
the index of the matching entry and leaves the table unchanged); and once
8 distinct identities exist, a lookup of a 9th identity fails with `none`,
the triggering trade is dropped with no state created or mutated, and this
remains true after any further sequence of ingestion events (the table
membership never changes again for the process lifetime). -/
theorem get_instrument_capacity (tbl : List moving_avg_t) (id : CStr) (t : trade_t)
    (evs : List (CStr × trade_t)) :
    ((∃ e ∈ tbl, e.instrument = id) →
      ∃ i, ∃ hi : i < tbl.length,
        get_instrument tbl id = (some i, tbl) ∧ (tbl.get ⟨i, hi⟩).instrument = id) ∧
    (tbl.length = 8 → (∀ e ∈ tbl, e.instrument ≠ id) →
      get_instrument (applySaves tbl evs) id = (none, applySaves tbl evs) ∧
      save_trade_state (applySaves tbl evs) id t = applySaves tbl evs) := by
  constructor
  · intro hex
    obtain ⟨i, hi, hl, hg⟩ := lookupIdx_found hex
    refine ⟨i, hi, ?_, hg⟩
    unfold get_instrument
    rw [hl]
  · intro h8 hid
    have hfull := applySaves_full id evs tbl h8 hid
    have hl : lookupIdx (applySaves tbl evs) id = none := lookupIdx_eq_none.mpr hfull.2
    have hget : get_instrument (applySaves tbl evs) id = (none, applySaves tbl evs) := by
      unfold get_instrument
      rw [hl, if_neg (by rw [hfull.1]; norm_num [MAX_INSTRUMENTS])]
    refine ⟨hget, ?_⟩
    unfold save_trade_state
    rw [hget]

/-- An eight-entry table of short identifiers `I1 … I8`. -/
def tbl8 : List moving_avg_t :=
  [mk_instrument "I1".data, mk_instrument "I2".data, mk_instrument "I3".data,
   mk_instrument "I4".data, mk_instrument "I5".data, mk_instrument "I6".data,
   mk_instrument "I7".data, mk_instrument "I8".data]

/-- Witness for C8: looking up the stored identifier `I3` in the full
table returns its entry without mutation, while the 9th identity `I9` is
rejected and its trade dropped, before and after a further ingestion
event for `I9`. -/
theorem get_instrument_capacity_witness :
    (∃ i, ∃ hi : i < tbl8.length,
      get_instrument tbl8 ("I3".data) = (some i, tbl8) ∧
      (tbl8.get ⟨i, hi⟩).instrument = "I3".data) ∧
    get_instrument (applySaves tbl8 [("I9".data, ⟨0, 1, 1, 0⟩)]) ("I9".data) =
      (none, applySaves tbl8 [("I9".data, ⟨0, 1, 1, 0⟩)]) ∧
    save_trade_state (applySaves tbl8 [("I9".data, ⟨0, 1, 1, 0⟩)]) ("I9".data) ⟨0, 1, 1, 0⟩ =
      applySaves tbl8 [("I9".data, ⟨0, 1, 1, 0⟩)] := by
  have hnames : ∀ e ∈ tbl8, e.instrument ≠ "I9".data := by
    intro e he
    simp only [tbl8, List.mem_cons, List.not_mem_nil, or_false] at he
    rcases he with h | h | h | h | h | h | h | h <;> subst h <;> decide
  have h2 := (get_instrument_capacity tbl8 ("I9".data) ⟨0, 1, 1, 0⟩
    [("I9".data, ⟨0, 1, 1, 0⟩)]).2 rfl hnames
  refine ⟨(get_instrument_capacity tbl8 ("I3".data) ⟨0, 1, 1, 0⟩ []).1
    ⟨mk_instrument "I3".data, ?_, rfl⟩, h2.1, h2.2⟩
  simp [tbl8]

/-- A too-long identifier can never equal a stored (15-character-truncated)
name. -/
lemma long_id_lookup_none {id : CStr} (hlen : 15 < id.length)
    (tbl : List moving_avg_t) (hshort : ∀ e ∈ tbl, e.instrument.length ≤ 15) :
    lookupIdx tbl id = none := by
  refine lookupIdx_eq_none.mpr (fun e he heq => ?_)
  have := hshort e he
  rw [heq] at this
  omega

/-- Each ingestion event for a too-long identifier creates a fresh entry
until the table is exhausted: after `n` events the table holds
`min 8 (original + n)` entries. -/
lemma applySaves_replicate_length (id : CStr) (t : trade_t) (hlen : 15 < id.length) :
    ∀ (n : ℕ) (tbl : List moving_avg_t),
      (∀ e ∈ tbl, e.instrument.length ≤ 15) → tbl.length ≤ 8 →
      (applySaves tbl (List.replicate n (id, t))).length = min 8 (tbl.length + n) := by
  intro n
  induction n with
  | zero =>
    intro tbl _ hle
    show tbl.length = min 8 (tbl.length + 0)
    omega
  | succ n ih =>
    intro tbl hshort hle
    show (applySaves (save_trade_state tbl id t) (List.replicate n (id, t))).length =
      min 8 (tbl.length + (n + 1))
    have hl := long_id_lookup_none hlen tbl hshort
    by_cases hcap : tbl.length < 8
    · have hsave : save_trade_state tbl id t =
          (tbl ++ [mk_instrument id]).set tbl.length
            (append_trade ((tbl ++ [mk_instrument id]).getD tbl.length (mk_instrument []))
              t) := by
        unfold save_trade_state get_instrument
        rw [hl, if_pos (by simpa [MAX_INSTRUMENTS] using hcap)]
      have hlen' : (save_trade_state tbl id t).length = tbl.length + 1 := by
        rw [hsave, List.length_set, List.length_append]
        rfl
      have hshort' : ∀ e ∈ save_trade_state tbl id t, e.instrument.length ≤ 15 := by
        intro e he
        rw [hsave] at he
        rcases List.mem_or_eq_of_mem_set he with hmem | rfl
        · rcases List.mem_append.mp hmem with hm | hm
          · exact hshort e hm
          · rcases List.mem_singleton.mp hm with rfl
            show (id.take 15).length ≤ 15
            rw [List.length_take]
            omega
        · rw [append_trade_instrument]
          have hd : (tbl ++ [mk_instrument id]).getD tbl.length (mk_instrument []) =
              mk_instrument id := by
            rw [List.getD_eq_getElem _ _ (by rw [List.length_append]; simp)]
            rw [List.getElem_append_right (le_refl _)]
            simp
          rw [hd]
          show (id.take 15).length ≤ 15
          rw [List.length_take]
          omega
      rw [ih (save_trade_state tbl id t) hshort' (by omega), hlen']
      omega
    · have h8 : tbl.length = 8 := by omega
      have hstep := save_full_preserves tbl id t h8
      have hshort' : ∀ e ∈ save_trade_state tbl id t, e.instrument.length ≤ 15 := by
        intro e he
        obtain ⟨e0, he0, heq⟩ := hstep.2 e he
        rw [heq]
        exact hshort e0 he0
      rw [ih (save_trade_state tbl id t) hshort' (by omega), hstep.1]
      omega

/-- C10: `get_instrument` stores a too-long identifier truncated to 15
characters but looks identifiers up by comparing the full string, so a
subsequent call with the same over-long identifier never matches the entry
it created: in a table of properly truncated names each such call creates
a fresh instrument (returning the new index and the grown table) until the
8-slot table is exhausted, after which it is rejected; over `n` ingestion
events the table grows to `min 8 (orig + n)` entries.  Idempotence holds
only for identifiers of at most 15 characters, whose stored name is the
identifier itself. -/
theorem long_id_truncation (id : CStr) (tbl : List moving_avg_t) (t : trade_t)
    (hlen : 15 < id.length) (hshort : ∀ e ∈ tbl, e.instrument.length ≤ 15) :
    (mk_instrument id).instrument ≠ id ∧
    (tbl.length < 8 →
      get_instrument tbl id = (some tbl.length, tbl ++ [mk_instrument id])) ∧
    (tbl.length = 8 → get_instrument tbl id = (none, tbl)) ∧
    (tbl.length ≤ 8 → ∀ n,
      (applySaves tbl (List.replicate n (id, t))).length = min 8 (tbl.length + n)) ∧
    (∀ id2 : CStr, id2.length ≤ 15 → (mk_instrument id2).instrument = id2) := by
  have hl := long_id_lookup_none hlen tbl hshort
  refine ⟨?_, ?_, ?_, ?_, ?_⟩
  · intro heq
    have h2 : id.take 15 = id := heq
    have h3 : (id.take 15).length = id.length := congrArg List.length h2
    rw [List.length_take] at h3
    omega
  · intro hcap
    unfold get_instrument
    rw [hl, if_pos (by simpa [MAX_INSTRUMENTS] using hcap)]
  · intro h8
    unfold get_instrument
    rw [hl, if_neg (by rw [h8]; norm_num [MAX_INSTRUMENTS])]
  · intro hle n
    exact applySaves_replicate_length id t hlen n tbl hshort hle
  · intro id2 h2
    show id2.take 15 = id2
    exact List.take_of_length_le h2

/-- The 16-character identifier used in the C10 witness. -/
def id16 : CStr := "ABCDEFGHIJKLMNOP".data

/-- Witness for C10: the 16-character identifier `id16` is stored
truncated (so no lookup with `id16` matches it), a first call on the empty
table creates a fresh entry, and ten successive trades for `id16` fill all
8 slots with distinct fresh entries. -/
theorem long_id_truncation_witness :
    (mk_instrument id16).instrument ≠ id16 ∧
    get_instrument [] id16 = (some 0, [mk_instrument id16]) ∧
    (applySaves [] (List.replicate 10 (id16, ⟨0, 1, 1, 0⟩))).length = 8 := by
  have hlen : 15 < id16.length := by decide
  have h := long_id_truncation id16 [] ⟨0, 1, 1, 0⟩ hlen (by simp)
  refine ⟨h.1, ?_, ?_⟩
  · have h2 := h.2.1 (by simp)
    simpa using h2
  · have h4 := h.2.2.2.1 (by simp) 10
    simpa using h4

end Okx
